import Mathlib

/-!
Verification of the tolerant JSON extractor of the AutoDoc repository
(`src/components/CodeAnalyzer.jsx`).

The component of interest is the pair of helpers `extractJsonFromText`
(balanced-brace scanning) and `extractJsonFromFences` (fenced-code-block
scanning), together with the extraction path of `analyzeCode` that combines
them.  Strings are modelled as `List Char`; the JavaScript `JSON.parse`
builtin is modelled by the executable parser `jsonParse` below, following
the JSON grammar implemented by the ECMAScript builtin.  A parsed number is
represented by its source token (no numeric value semantics is needed by
any property considered here); a `\uXXXX` escape that denotes a lone UTF-16
surrogate (not representable as a Lean `Char`) is replaced by U+FFFD.
-/

/-- A JSON value as produced by `JSON.parse`.  Object members are kept in
the order in which the parser encounters them. -/
inductive Json where
  | null : Json
  | bool (b : Bool) : Json
  | num (token : String) : Json
  | str (s : String) : Json
  | arr (items : List Json) : Json
  | obj (members : List (String × Json)) : Json
deriving Repr

/-- JSON insignificant whitespace: space, tab, line feed, carriage return. -/
def isJsonWs (c : Char) : Bool :=
  c == ' ' || c == '\t' || c == '\n' || c == '\r'

def skipWs : List Char → List Char
  | [] => []
  | c :: rest => if isJsonWs c then skipWs rest else c :: rest

def takeDigits : List Char → (List Char × List Char)
  | [] => ([], [])
  | c :: rest =>
    if c.isDigit then
      let p := takeDigits rest
      (c :: p.1, p.2)
    else ([], c :: rest)

/-- Integer part of a JSON number: `0` or a nonzero digit followed by digits. -/
def parseIntPart : List Char → Option (List Char × List Char)
  | [] => none
  | c :: rest =>
    if c = '0' then some (['0'], rest)
    else if c.isDigit then
      let p := takeDigits rest
      some (c :: p.1, p.2)
    else none

/-- Optional fraction part: `.` followed by at least one digit. -/
def parseFracPart : List Char → Option (List Char × List Char)
  | [] => some ([], [])
  | c :: rest =>
    if c = '.' then
      match takeDigits rest with
      | ([], _) => none
      | (ds, r) => some ('.' :: ds, r)
    else some ([], c :: rest)

/-- Optional exponent part: `e`/`E`, optional sign, at least one digit. -/
def parseExpPart : List Char → Option (List Char × List Char)
  | [] => some ([], [])
  | c :: rest =>
    if c = 'e' ∨ c = 'E' then
      match rest with
      | [] => none
      | s :: rest2 =>
        if s = '+' ∨ s = '-' then
          match takeDigits rest2 with
          | ([], _) => none
          | (ds, r) => some (c :: s :: ds, r)
        else
          match takeDigits rest with
          | ([], _) => none
          | (ds, r) => some (c :: ds, r)
    else some ([], c :: rest)

/-- Unsigned numeric token: int part, optional fraction, optional exponent. -/
def parseNumMag (cs : List Char) : Option (List Char × List Char) :=
  match parseIntPart cs with
  | none => none
  | some (ip, r1) =>
    match parseFracPart r1 with
    | none => none
    | some (fp, r2) =>
      match parseExpPart r2 with
      | none => none
      | some (ep, r3) => some (ip ++ fp ++ ep, r3)

/-- A JSON number token, with optional leading minus sign. -/
def parseNumberToken : List Char → Option (List Char × List Char)
  | [] => none
  | c :: rest =>
    if c = '-' then
      match parseNumMag rest with
      | some (t, r) => some ('-' :: t, r)
      | none => none
    else parseNumMag (c :: rest)

def hexDigitVal (c : Char) : Option Nat :=
  if '0' ≤ c ∧ c ≤ '9' then some (c.toNat - '0'.toNat)
  else if 'a' ≤ c ∧ c ≤ 'f' then some (c.toNat - 'a'.toNat + 10)
  else if 'A' ≤ c ∧ c ≤ 'F' then some (c.toNat - 'A'.toNat + 10)
  else none

/-- A UTF-16 code unit as a character; a lone surrogate (which JavaScript
keeps in the string but Lean cannot represent) becomes U+FFFD. -/
def codeUnitChar (u : Nat) : Char :=
  if 0xD800 ≤ u ∧ u ≤ 0xDFFF then Char.ofNat 0xFFFD else Char.ofNat u

/-- Body of a JSON string literal, after the opening quote.  `acc` holds the
already-decoded characters in reverse.  The fuel only bounds recursion; every
step consumes at least one character, so `parseStringBody` supplies enough. -/
def parseStringAux : Nat → List Char → List Char → Option (String × List Char)
  | 0, _, _ => none
  | Nat.succ _, _, [] => none
  | Nat.succ fuel, acc, c :: rest =>
    if c = '"' then some (String.mk acc.reverse, rest)
    else if c = '\\' then
      match rest with
      | [] => none
      | e :: rest2 =>
        if e = '"' then parseStringAux fuel ('"' :: acc) rest2
        else if e = '\\' then parseStringAux fuel ('\\' :: acc) rest2
        else if e = '/' then parseStringAux fuel ('/' :: acc) rest2
        else if e = 'b' then parseStringAux fuel (Char.ofNat 8 :: acc) rest2
        else if e = 'f' then parseStringAux fuel (Char.ofNat 12 :: acc) rest2
        else if e = 'n' then parseStringAux fuel ('\n' :: acc) rest2
        else if e = 'r' then parseStringAux fuel ('\r' :: acc) rest2
        else if e = 't' then parseStringAux fuel ('\t' :: acc) rest2
        else if e = 'u' then
          match rest2 with
          | h1 :: h2 :: h3 :: h4 :: rest3 =>
            match hexDigitVal h1, hexDigitVal h2, hexDigitVal h3, hexDigitVal h4 with
            | some a, some b, some c1, some d =>
              let u := ((a * 16 + b) * 16 + c1) * 16 + d
              if 0xD800 ≤ u ∧ u ≤ 0xDBFF then
                match rest3 with
                | '\\' :: 'u' :: g1 :: g2 :: g3 :: g4 :: rest4 =>
                  match hexDigitVal g1, hexDigitVal g2, hexDigitVal g3, hexDigitVal g4 with
                  | some a2, some b2, some c2, some d2 =>
                    let u2 := ((a2 * 16 + b2) * 16 + c2) * 16 + d2
                    if 0xDC00 ≤ u2 ∧ u2 ≤ 0xDFFF then
                      parseStringAux fuel
                        (Char.ofNat (0x10000 + (u - 0xD800) * 0x400 + (u2 - 0xDC00)) :: acc) rest4
                    else parseStringAux fuel (codeUnitChar u2 :: codeUnitChar u :: acc) rest4
                  | _, _, _, _ => parseStringAux fuel (codeUnitChar u :: acc) rest3
                | _ => parseStringAux fuel (codeUnitChar u :: acc) rest3
              else parseStringAux fuel (codeUnitChar u :: acc) rest3
            | _, _, _, _ => none
          | _ => none
        else none
    else if c.toNat < 32 then none
    else parseStringAux fuel (c :: acc) rest

def parseStringBody (acc cs : List Char) : Option (String × List Char) :=
  parseStringAux (cs.length + 1) acc cs

mutual

/-- A JSON value.  The fuel bounds parser recursion depth; `jsonParse`
supplies more fuel than any input can consume. -/
def parseValue : Nat → List Char → Option (Json × List Char)
  | 0, _ => none
  | Nat.succ fuel, cs =>
    match skipWs cs with
    | 'n' :: 'u' :: 'l' :: 'l' :: rest => some (Json.null, rest)
    | 't' :: 'r' :: 'u' :: 'e' :: rest => some (Json.bool true, rest)
    | 'f' :: 'a' :: 'l' :: 's' :: 'e' :: rest => some (Json.bool false, rest)
    | '"' :: rest =>
      match parseStringBody [] rest with
      | some (s, r) => some (Json.str s, r)
      | none => none
    | '[' :: rest => parseArrayItems fuel rest
    | '{' :: rest => parseObjectMembers fuel rest
    | cs1 =>
      match parseNumberToken cs1 with
      | some (t, r) => some (Json.num (String.mk t), r)
      | none => none

/-- Contents of an array, after the opening bracket. -/
def parseArrayItems : Nat → List Char → Option (Json × List Char)
  | 0, _ => none
  | Nat.succ fuel, cs =>
    match skipWs cs with
    | ']' :: rest => some (Json.arr [], rest)
    | cs1 =>
      match parseValue fuel cs1 with
      | none => none
      | some (v, r) =>
        match parseArrayRest fuel [v] r with
        | some (items, r2) => some (Json.arr items, r2)
        | none => none

/-- Items of an array after the first one; `acc` holds items in reverse. -/
def parseArrayRest : Nat → List Json → List Char → Option (List Json × List Char)
  | 0, _, _ => none
  | Nat.succ fuel, acc, cs =>
    match skipWs cs with
    | ',' :: rest =>
      match parseValue fuel rest with
      | some (v, r) => parseArrayRest fuel (v :: acc) r
      | none => none
    | ']' :: rest => some (acc.reverse, rest)
    | _ => none

/-- One `"key": value` member, positioned after the key's opening quote. -/
def parseMember : Nat → List Char → Option ((String × Json) × List Char)
  | 0, _ => none
  | Nat.succ fuel, cs =>
    match parseStringBody [] cs with
    | none => none
    | some (k, r) =>
      match skipWs r with
      | ':' :: r2 =>
        match parseValue fuel r2 with
        | some (v, r3) => some ((k, v), r3)
        | none => none
      | _ => none

/-- Contents of an object, after the opening brace. -/
def parseObjectMembers : Nat → List Char → Option (Json × List Char)
  | 0, _ => none
  | Nat.succ fuel, cs =>
    match skipWs cs with
    | '}' :: rest => some (Json.obj [], rest)
    | '"' :: rest =>
      match parseMember fuel rest with
      | none => none
      | some (kv, r) =>
        match parseObjectRest fuel [kv] r with
        | some (ms, r2) => some (Json.obj ms, r2)
        | none => none
    | _ => none

/-- Members of an object after the first one; `acc` holds them in reverse. -/
def parseObjectRest : Nat → List (String × Json) → List Char →
    Option (List (String × Json) × List Char)
  | 0, _, _ => none
  | Nat.succ fuel, acc, cs =>
    match skipWs cs with
    | ',' :: rest =>
      match skipWs rest with
      | '"' :: r2 =>
        match parseMember fuel r2 with
        | some (kv, r3) => parseObjectRest fuel (kv :: acc) r3
        | none => none
      | _ => none
    | '}' :: rest => some (acc.reverse, rest)
    | _ => none

end

/-- The model of `JSON.parse`: parse one value, then require that only
whitespace remains; any violation of the grammar yields `none` (the model of
a thrown `SyntaxError` being caught by the extraction code). -/
def jsonParse (cs : List Char) : Option Json :=
  match parseValue (2 * cs.length + 4) cs with
  | some (v, rest) =>
    match skipWs rest with
    | [] => some v
    | _ => none
  | none => none

/-! ## JavaScript-side notions: truthiness, `String.prototype.trim` -/

/-- Whether the mantissa of a numeric token is zero (the token's value is
`0` or `-0`, the only falsy numbers `JSON.parse` can produce). -/
def numTokenIsZero (t : String) : Bool :=
  (t.data.takeWhile (fun c => !(c == 'e' || c == 'E'))).all
    (fun c => !c.isDigit || c == '0')

/-- JavaScript truthiness of a value produced by `JSON.parse`. -/
def jsTruthy : Json → Bool
  | Json.null => false
  | Json.bool b => b
  | Json.num t => !(numTokenIsZero t)
  | Json.str s => !(s.data.isEmpty)
  | Json.arr _ => true
  | Json.obj _ => true

def jsTruthyOpt : Option Json → Bool
  | some v => jsTruthy v
  | none => false

/-- The characters removed by `String.prototype.trim`: ECMAScript
WhiteSpace and LineTerminator code points. -/
def isJsTrimWs (c : Char) : Bool :=
  c == ' ' || c == '\t' || c == '\n' || c == '\r' ||
  c == Char.ofNat 11 || c == Char.ofNat 12 || c == Char.ofNat 160 ||
  c == Char.ofNat 8232 || c == Char.ofNat 8233 || c == Char.ofNat 65279

def jsTrim (cs : List Char) : List Char :=
  ((cs.dropWhile isJsTrimWs).reverse.dropWhile isJsTrimWs).reverse

/-- An argument passed to the extraction helpers: a string (its UTF-16 code
units, here characters), or any non-string value, of which only the
JavaScript truthiness could be observed by the guards. -/
inductive JsInput where
  | str (s : List Char) : JsInput
  | nonString (truthy : Bool) : JsInput

/-! ## `extractJsonFromText`: balanced-brace scanning -/

/-- The inner loop of `extractJsonFromText`: walk the text from a start
position, incrementing the depth on `{` and decrementing it on `}`; when
the depth returns to zero, return the candidate substring walked so far
(accumulated in reverse in `acc`); if the depth never returns to zero,
return `none`. -/
def braceScan : List Char → Int → List Char → Option (List Char)
  | [], _, _ => none
  | c :: rest, depth, acc =>
    if c = '{' then braceScan rest (depth + 1) (c :: acc)
    else if c = '}' then
      if depth - 1 = 0 then some ((c :: acc).reverse)
      else braceScan rest (depth - 1) (c :: acc)
    else braceScan rest depth (c :: acc)

/-- The `starts` array: every index of the text holding a `{`, in
increasing order. -/
def bracePositions (s : List Char) : List Nat :=
  (List.range s.length).filter (fun i => s[i]? == some '{')

/-- The outcome of one start index: the depth-matched candidate, if the
braces rebalance, parsed as JSON. -/
def tryAt (s : List Char) (start : Nat) : Option Json :=
  (braceScan (s.drop start) 0 []).bind jsonParse

/-- The outer loop of `extractJsonFromText` over the start indices: a
candidate that parses is returned; a candidate that fails to parse, or a
start whose braces never rebalance, is skipped. -/
def scanStarts : List Char → List Nat → Option Json
  | _, [] => none
  | s, start :: rest =>
    match braceScan (s.drop start) 0 [] with
    | some candidate =>
      match jsonParse candidate with
      | some v => some v
      | none => scanStarts s rest
    | none => scanStarts s rest

/-- The helper `extractJsonFromText` of `CodeAnalyzer.jsx` (lines 92–114): `null` for
a falsy or non-string argument, otherwise balanced-brace scanning over all
`{` positions. -/
def extractJsonFromText : JsInput → Option Json
  | JsInput.nonString _ => none
  | JsInput.str s => if s = [] then none else scanStarts s (bracePositions s)

/-! ## `extractJsonFromFences`: fenced-code-block scanning

The fence pattern is the regular expression
`/(backtick)(backtick)(backtick)(?:json|python|py|txt)?\n([\s\S]*?)(backtick)(backtick)(backtick)/gi`:
three backticks, an optional case-insensitive label tried in alternation
order, a newline, then a lazily matched block body up to the next three
backticks.  `exec` in a loop yields the matches left to right, resuming
after the end of each match. -/

def tick : Char := Char.ofNat 96

/-- Consume three backticks, or fail. -/
def stripTicks3 (cs : List Char) : Option (List Char) :=
  match cs with
  | a :: b :: c :: rest => if a = tick ∧ b = tick ∧ c = tick then some rest else none
  | _ => none

/-- The lazy body: split at the first occurrence of three backticks,
returning the body before it and the remainder after it; fail when no
three consecutive backticks occur. -/
def splitAtTicks : List Char → Option (List Char × List Char)
  | [] => none
  | c :: rest =>
    match stripTicks3 (c :: rest) with
    | some after => some ([], after)
    | none =>
      match splitAtTicks rest with
      | some (pre, after) => some (c :: pre, after)
      | none => none

/-- Case-insensitively consume a (lowercase) label. -/
def matchLabelCI : List Char → List Char → Option (List Char)
  | [], cs => some cs
  | _ :: _, [] => none
  | l :: ls, c :: cs => if c.toLower = l then matchLabelCI ls cs else none

/-- The alternatives of the optional label group, in the order the regular
expression tries them; the empty alternative (no label) comes last. -/
def fenceLabels : List (List Char) :=
  [['j', 's', 'o', 'n'], ['p', 'y', 't', 'h', 'o', 'n'], ['p', 'y'], ['t', 'x', 't'], []]

/-- Try the label alternatives in order: each must be followed by a newline
and a body closed by three backticks; on failure of the continuation, the
next alternative is tried (regular-expression backtracking). -/
def tryFenceLabels : List (List Char) → List Char → Option (List Char × List Char)
  | [], _ => none
  | l :: ls, rest =>
    match matchLabelCI l rest with
    | some ('\n' :: body) =>
      match splitAtTicks body with
      | some r => some r
      | none => tryFenceLabels ls rest
    | _ => tryFenceLabels ls rest

/-- Match the whole fence pattern anchored at the head of `cs`, returning
the captured body and the text after the closing backticks. -/
def fenceMatchAt (cs : List Char) : Option (List Char × List Char) :=
  match stripTicks3 cs with
  | some rest => tryFenceLabels fenceLabels rest
  | none => none

/-- Leftmost fence match: try each start position left to right. -/
def findFence : List Char → Option (List Char × List Char)
  | [] => none
  | c :: rest =>
    match fenceMatchAt (c :: rest) with
    | some r => some r
    | none => findFence rest

/-- All fence bodies, left to right, each search resuming after the end of
the previous match.  Every match consumes at least seven characters, so
fuel `length + 1` is never exhausted. -/
def fenceBlocksAux : Nat → List Char → List (List Char)
  | 0, _ => []
  | Nat.succ fuel, cs =>
    match findFence cs with
    | some (body, after) => body :: fenceBlocksAux fuel after
    | none => []

def fenceBlocks (cs : List Char) : List (List Char) :=
  fenceBlocksAux (cs.length + 1) cs

/-- The loop body of `extractJsonFromFences` for one block: trim, attempt a
direct parse (returning whatever value results), and on parse failure fall
back to balanced-brace scanning of the block, returning its result when
truthy. -/
def blockTry (b : List Char) : Option Json :=
  match jsonParse (jsTrim b) with
  | some v => some v
  | none =>
    match extractJsonFromText (JsInput.str (jsTrim b)) with
    | some parsed => if jsTruthy parsed then some parsed else none
    | none => none

/-- The `while` loop of `extractJsonFromFences` over the matched blocks. -/
def extractJsonFromFencesCore : List (List Char) → Option Json
  | [] => none
  | b :: rest =>
    match jsonParse (jsTrim b) with
    | some v => some v
    | none =>
      match extractJsonFromText (JsInput.str (jsTrim b)) with
      | some parsed =>
        if jsTruthy parsed then some parsed else extractJsonFromFencesCore rest
      | none => extractJsonFromFencesCore rest

/-- The helper `extractJsonFromFences` of `CodeAnalyzer.jsx` (lines 117–131). -/
def extractJsonFromFences : JsInput → Option Json
  | JsInput.nonString _ => none
  | JsInput.str s => if s = [] then none else extractJsonFromFencesCore (fenceBlocks s)

/-! ## The extraction path of `analyzeCode` (lines 327–339) -/

/-- The combined extraction applied by `analyzeCode` to a string analysis
response: the fenced-block pass first; when its result is falsy, the
whole-text balanced-brace pass; when that is falsy too, the path throws
`No JSON found in response` internally, caught by the surrounding handler —
modelled as `none`. -/
def analyzeCodeExtract (analysisContent : List Char) : Option Json :=
  let fromFences := extractJsonFromFences (JsInput.str analysisContent)
  if jsTruthyOpt fromFences then fromFences
  else
    let fromBraces := extractJsonFromText (JsInput.str analysisContent)
    if jsTruthyOpt fromBraces then fromBraces else none

/-- The fallback analysis result the caller builds when extraction fails:
the raw text wrapped as a single informational suggestion. -/
def fallbackResult (analysisContent : List Char) : Json :=
  Json.obj [
    ("errors", Json.arr []),
    ("warnings", Json.arr []),
    ("suggestions", Json.arr [Json.obj [
      ("line", Json.num "0"),
      ("code", Json.str "Analysis Result"),
      ("message", Json.str (String.mk analysisContent)),
      ("severity", Json.str "info")]]),
    ("summary", Json.obj [
      ("errorCount", Json.num "0"),
      ("warningCount", Json.num "0"),
      ("suggestionCount", Json.num "1")])]

/-- What `analyzeCode` stores as the analysis result for a string response:
the extracted value, or the fallback representation. -/
def analyzeCodeResult (analysisContent : List Char) : Json :=
  match analyzeCodeExtract analysisContent with
  | some v => v
  | none => fallbackResult analysisContent

/-! ## Exception-aware model

`JSON.parse` throws on invalid input.  To state that the extraction
functions never let an exception escape, each is re-modelled with the
throwing parse and the `try`/`catch` structure of the source made explicit;
an uncaught exception would surface as `Except.error`. -/

def jsonParseE (cs : List Char) : Except Unit Json :=
  match jsonParse cs with
  | some v => Except.ok v
  | none => Except.error ()

def scanStartsE : List Char → List Nat → Except Unit (Option Json)
  | _, [] => Except.ok none
  | s, start :: rest =>
    match braceScan (s.drop start) 0 [] with
    | some candidate =>
      match jsonParseE candidate with
      | Except.ok v => Except.ok (some v)
      | Except.error _ => scanStartsE s rest
    | none => scanStartsE s rest

def extractJsonFromTextE : JsInput → Except Unit (Option Json)
  | JsInput.nonString _ => Except.ok none
  | JsInput.str s =>
    if s = [] then Except.ok none else scanStartsE s (bracePositions s)

def extractJsonFromFencesCoreE : List (List Char) → Except Unit (Option Json)
  | [] => Except.ok none
  | b :: rest =>
    match jsonParseE (jsTrim b) with
    | Except.ok v => Except.ok (some v)
    | Except.error _ =>
      match extractJsonFromTextE (JsInput.str (jsTrim b)) with
      | Except.error e => Except.error e
      | Except.ok (some parsed) =>
        if jsTruthy parsed then Except.ok (some parsed)
        else extractJsonFromFencesCoreE rest
      | Except.ok none => extractJsonFromFencesCoreE rest

def extractJsonFromFencesE : JsInput → Except Unit (Option Json)
  | JsInput.nonString _ => Except.ok none
  | JsInput.str s =>
    if s = [] then Except.ok none else extractJsonFromFencesCoreE (fenceBlocks s)

/-! ## Depth accounting, for stating the depth-matching property -/

/-- The net brace depth of a piece of text: `+1` per `{`, `-1` per `}`. -/
def braceDepth : List Char → Int
  | [] => 0
  | c :: rest => (if c = '{' then 1 else if c = '}' then (-1 : Int) else 0) + braceDepth rest

/-! ## Helper lemmas -/

theorem scanStarts_eq_findSome (s : List Char) (l : List Nat) :
    scanStarts s l = l.findSome? (tryAt s) := by
  induction l with
  | nil => rfl
  | cons a t ih =>
    rw [List.findSome?_cons]
    unfold tryAt
    cases h : braceScan (s.drop a) 0 [] with
    | none => simp only [scanStarts, h, Option.bind]; exact ih
    | some cand =>
      cases h2 : jsonParse cand with
      | none => simp only [scanStarts, h, h2, Option.bind]; exact ih
      | some v => simp only [scanStarts, h, h2, Option.bind]

theorem findSome_first {α β : Type} (f : α → Option β) :
    ∀ (l1 : List α) (b : α) (l2 : List α) (v : β),
      (∀ a ∈ l1, f a = none) → f b = some v →
      (l1 ++ b :: l2).findSome? f = some v := by
  intro l1
  induction l1 with
  | nil =>
    intro b l2 v _ h2
    rw [List.nil_append, List.findSome?_cons, h2]
  | cons a t ih =>
    intro b l2 v h1 h2
    have ha : f a = none := h1 a (List.mem_cons_self a t)
    rw [List.cons_append, List.findSome?_cons, ha]
    exact ih b l2 v (fun x hx => h1 x (List.mem_cons_of_mem a hx)) h2

theorem findSome_min {β : Type} (f : Nat → Option β) :
    ∀ (l : List Nat) (i : Nat) (v : β),
      l.Pairwise (· < ·) → i ∈ l → f i = some v →
      (∀ j ∈ l, j < i → f j = none) →
      l.findSome? f = some v := by
  intro l
  induction l with
  | nil => intro i v _ hi; exact absurd hi (List.not_mem_nil i)
  | cons a t ih =>
    intro i v hp hi hv hmin
    rcases List.mem_cons.mp hi with heq | hmem
    · subst heq
      rw [List.findSome?_cons, hv]
    · have halt : a < i := (List.pairwise_cons.mp hp).1 i hmem
      have ha : f a = none := hmin a (List.mem_cons_self a t) halt
      rw [List.findSome?_cons, ha]
      exact ih i v (List.pairwise_cons.mp hp).2 hmem hv
        (fun j hj hlt => hmin j (List.mem_cons_of_mem a hj) hlt)

theorem bracePositions_pairwise (s : List Char) :
    (bracePositions s).Pairwise (· < ·) :=
  List.Pairwise.filter _ (List.pairwise_lt_range s.length)

theorem extractJsonFromText_str (s : List Char) :
    extractJsonFromText (JsInput.str s) = (bracePositions s).findSome? (tryAt s) := by
  by_cases h : s = []
  · subst h; rfl
  · simp only [extractJsonFromText, if_neg h]
    exact scanStarts_eq_findSome s (bracePositions s)

/-- C1: on every string input, balanced-brace extraction tries the `{`
positions of the text in increasing order; at each position the
depth-matched candidate is parsed, and the first successful parse is the
result, earlier positions whose candidate fails to parse or never
rebalances being skipped.  On `'{bad json} then {"ok":true}'` the result is
the object `{ok: true}`. -/
theorem extractJsonFromText_first_candidate_wins :
    (∀ s : List Char,
      extractJsonFromText (JsInput.str s) = (bracePositions s).findSome? (tryAt s)) ∧
    (∀ (s : List Char) (i : Nat) (v : Json),
      i ∈ bracePositions s → tryAt s i = some v →
      (∀ j ∈ bracePositions s, j < i → tryAt s j = none) →
      extractJsonFromText (JsInput.str s) = some v) ∧
    extractJsonFromText (JsInput.str "\x7bbad json\x7d then \x7b\"ok\":true\x7d".data) =
      some (Json.obj [("ok", Json.bool true)]) := by
  refine ⟨extractJsonFromText_str, ?_, by rfl⟩
  intro s i v hi hv hmin
  rw [extractJsonFromText_str]
  exact findSome_min (tryAt s) (bracePositions s) i v (bracePositions_pairwise s) hi hv hmin

theorem extractJsonFromText_first_candidate_wins_witness :
    extractJsonFromText (JsInput.str "x\x7b\"a\":1\x7d".data) =
      some (Json.obj [("a", Json.num "1")]) :=
  extractJsonFromText_first_candidate_wins.2.1 _ 1 _ (by decide) (by rfl)
    (fun j hj hlt => by
      have hb : bracePositions "x\x7b\"a\":1\x7d".data = [1] := by decide
      rw [hb, List.mem_singleton] at hj
      subst hj
      exact absurd hlt (by decide))

theorem fencesCore_eq_findSome (blocks : List (List Char)) :
    extractJsonFromFencesCore blocks = blocks.findSome? blockTry := by
  induction blocks with
  | nil => rfl
  | cons b rest ih =>
    rw [List.findSome?_cons]
    unfold blockTry
    cases h : jsonParse (jsTrim b) with
    | some v => simp only [extractJsonFromFencesCore, h]
    | none =>
      cases h2 : extractJsonFromText (JsInput.str (jsTrim b)) with
      | none => simp only [extractJsonFromFencesCore, h, h2]; exact ih
      | some parsed =>
        by_cases ht : jsTruthy parsed
        · simp only [extractJsonFromFencesCore, h, h2, if_pos ht]
        · simp only [extractJsonFromFencesCore, h, h2, if_neg ht]; exact ih

/-- C2: on every string input, fenced-block extraction examines the fenced
blocks in order of appearance; for each block it first attempts a direct
parse of the trimmed content and otherwise falls back to balanced-brace
scanning of the block (`blockTry`); the first success is returned, and a
block yielding nothing does not prevent later blocks from being examined. -/
theorem extractJsonFromFences_blocks_in_order :
    (∀ blocks : List (List Char),
      extractJsonFromFencesCore blocks = blocks.findSome? blockTry) ∧
    (∀ s : List Char,
      extractJsonFromFences (JsInput.str s) = (fenceBlocks s).findSome? blockTry) ∧
    (∀ (bs1 : List (List Char)) (b : List Char) (bs2 : List (List Char)) (v : Json),
      (∀ b2 ∈ bs1, blockTry b2 = none) → blockTry b = some v →
      extractJsonFromFencesCore (bs1 ++ b :: bs2) = some v) := by
  refine ⟨fencesCore_eq_findSome, ?_, ?_⟩
  · intro s
    by_cases h : s = []
    · subst h; rfl
    · simp only [extractJsonFromFences, if_neg h]
      exact fencesCore_eq_findSome (fenceBlocks s)
  · intro bs1 b bs2 v h1 h2
    rw [fencesCore_eq_findSome]
    exact findSome_first blockTry bs1 b bs2 v h1 h2

theorem extractJsonFromFences_blocks_in_order_witness :
    extractJsonFromFencesCore
      (fenceBlocks "```json\nhello\n``` and ```json\n\x7b\"a\":1\x7d\n```".data) =
      some (Json.obj [("a", Json.num "1")]) := by
  have hb : fenceBlocks "```json\nhello\n``` and ```json\n\x7b\"a\":1\x7d\n```".data =
      ["hello\n".data] ++ "\x7b\"a\":1\x7d\n".data :: [] := by rfl
  rw [hb]
  exact extractJsonFromFences_blocks_in_order.2.2 _ _ _ _
    (fun b2 hb2 => by rw [List.mem_singleton] at hb2; subst hb2; rfl) rfl

/-- C3: in the combined extraction path of `analyzeCode`, the fenced-block
pass runs first: whenever it yields a truthy value, that value is the
result, even when whole-text brace scanning would also succeed.  On prose
containing `{"y":2}` followed by a fenced block holding `{"x":1}`, the
result is `{x: 1}` from the fence, while brace scanning of the whole text
would have yielded `{y: 2}`. -/
theorem analyzeCode_fences_before_braces :
    (∀ (s : List Char) (v : Json),
      extractJsonFromFences (JsInput.str s) = some v → jsTruthy v = true →
      analyzeCodeExtract s = some v) ∧
    analyzeCodeExtract "see \x7b\"y\":2\x7d then\n```json\n\x7b\"x\":1\x7d\n```".data =
      some (Json.obj [("x", Json.num "1")]) ∧
    extractJsonFromText
        (JsInput.str "see \x7b\"y\":2\x7d then\n```json\n\x7b\"x\":1\x7d\n```".data) =
      some (Json.obj [("y", Json.num "2")]) ∧
    Json.obj [("x", Json.num "1")] ≠ Json.obj [("y", Json.num "2")] := by
  refine ⟨?_, by rfl, by rfl, by simp⟩
  intro s v hf ht
  simp only [analyzeCodeExtract, hf, jsTruthyOpt, ht, if_pos]

theorem analyzeCode_fences_before_braces_witness :
    analyzeCodeExtract "pre\n```json\n\x7b\"w\":3\x7d\n```".data =
      some (Json.obj [("w", Json.num "3")]) :=
  analyzeCode_fences_before_braces.1 _ _ (by rfl) (by rfl)

/-- C7: the guards of both helpers send the empty string and every
non-string argument (whatever its truthiness) to `null` before any
scanning or parsing happens. -/
theorem empty_or_nonstring_input_yields_null :
    ∀ b : Bool,
      extractJsonFromText (JsInput.nonString b) = none ∧
      extractJsonFromFences (JsInput.nonString b) = none ∧
      extractJsonFromText (JsInput.str []) = none ∧
      extractJsonFromFences (JsInput.str []) = none := by
  intro b
  exact ⟨rfl, rfl, by simp [extractJsonFromText], by simp [extractJsonFromFences]⟩

/-- A call to `extractJsonFromText` observed together with the text it was
given: the result, and the text as it stands after the call. -/
def extractTextRun (s : List Char) : Option Json × List Char :=
  (extractJsonFromText (JsInput.str s), s)

/-- A call to `extractJsonFromFences` observed together with the text it
was given. -/
def extractFencesRun (s : List Char) : Option Json × List Char :=
  (extractJsonFromFences (JsInput.str s), s)

/-- C8: extraction is deterministic and read-only.  Each call leaves the
input text unchanged, and a second invocation on the text as left by the
first yields the same result; in this pure embedding of the two helpers
(which perform no I/O and consult no shared state) both facts hold
definitionally. -/
theorem extraction_deterministic_and_readonly :
    ∀ s : List Char,
      (extractTextRun s).2 = s ∧
      (extractFencesRun s).2 = s ∧
      (extractTextRun (extractTextRun s).2).1 = (extractTextRun s).1 ∧
      (extractFencesRun (extractFencesRun s).2).1 = (extractFencesRun s).1 ∧
      analyzeCodeExtract s = analyzeCodeExtract s :=
  fun _ => ⟨rfl, rfl, rfl, rfl, rfl⟩

/-- C9: depth counting in `extractJsonFromText` counts braces inside JSON
string literals too.  The text `{"a":"}"}` is itself a single valid JSON
object, yet the depth-matched candidate at its only `{` is cut at the `}`
inside the string, fails to parse, and extraction returns `null`. -/
theorem braces_inside_strings_defeat_extraction :
    jsonParse "\x7b\"a\":\"\x7d\"\x7d".data = some (Json.obj [("a", Json.str "\x7d")]) ∧
    bracePositions "\x7b\"a\":\"\x7d\"\x7d".data = [0] ∧
    braceScan "\x7b\"a\":\"\x7d\"\x7d".data 0 [] = some "\x7b\"a\":\"\x7d".data ∧
    jsonParse "\x7b\"a\":\"\x7d".data = none ∧
    extractJsonFromText (JsInput.str "\x7b\"a\":\"\x7d\"\x7d".data) = none :=
  ⟨rfl, by decide, rfl, rfl, rfl⟩

/-- C10: the fence label is optional and case-insensitive (`json`,
`python`, `py`, `txt`, or none), and a block whose trimmed content parses
is returned whatever the value is — arrays, booleans, numbers, `null` —
so the fence pass is not restricted to objects.  A block parsing to `null`
ends the fence scan without later blocks being tried, and the caller
cannot tell that `null` from not-found: the combined path falls through to
whole-text brace scanning. -/
theorem fence_labels_and_nonobject_values :
    extractJsonFromFences (JsInput.str "```JSON\n\x7b\"a\":1\x7d\n```".data) =
      some (Json.obj [("a", Json.num "1")]) ∧
    extractJsonFromFences (JsInput.str "```Python\n\x7b\"a\":1\x7d\n```".data) =
      some (Json.obj [("a", Json.num "1")]) ∧
    extractJsonFromFences (JsInput.str "```PY\n\x7b\"a\":1\x7d\n```".data) =
      some (Json.obj [("a", Json.num "1")]) ∧
    extractJsonFromFences (JsInput.str "```txt\n\x7b\"a\":1\x7d\n```".data) =
      some (Json.obj [("a", Json.num "1")]) ∧
    extractJsonFromFences (JsInput.str "```\n\x7b\"a\":1\x7d\n```".data) =
      some (Json.obj [("a", Json.num "1")]) ∧
    extractJsonFromFences (JsInput.str "```json\ntrue\n```".data) =
      some (Json.bool true) ∧
    extractJsonFromFences (JsInput.str "```json\n[1, 2]\n```".data) =
      some (Json.arr [Json.num "1", Json.num "2"]) ∧
    extractJsonFromFences (JsInput.str "```json\n7\n```".data) =
      some (Json.num "7") ∧
    extractJsonFromFences
        (JsInput.str
          "```json\nnull\n``` mid \x7b\"q\":1\x7d ```json\n\x7b\"a\":1\x7d\n```".data) =
      some Json.null ∧
    analyzeCodeExtract
        "```json\nnull\n``` mid \x7b\"q\":1\x7d ```json\n\x7b\"a\":1\x7d\n```".data =
      some (Json.obj [("q", Json.num "1")]) :=
  ⟨rfl, rfl, rfl, rfl, rfl, rfl, rfl, rfl, rfl, rfl⟩

theorem bracePositions_eq_nil {s : List Char} (h : '{' ∉ s) :
    bracePositions s = [] := by
  unfold bracePositions
  rw [List.filter_eq_nil_iff]
  intro i _
  simp only [beq_iff_eq, Bool.not_eq_true]
  intro hget
  rw [← List.get?_eq_getElem?] at hget
  exact absurd (List.get?_mem hget) h

theorem stripTicks3_eq_none {cs : List Char} (h : tick ∉ cs) :
    stripTicks3 cs = none := by
  match cs with
  | [] => rfl
  | [_] => rfl
  | [_, _] => rfl
  | a :: b :: c :: rest =>
    have ha : ¬(a = tick) := fun he => h (he ▸ List.mem_cons_self a _)
    simp [stripTicks3, ha]

theorem findFence_eq_none {cs : List Char} (h : tick ∉ cs) :
    findFence cs = none := by
  induction cs with
  | nil => rfl
  | cons c rest ih =>
    have h1 : tick ∉ rest := fun hm => h (List.mem_cons_of_mem c hm)
    simp only [findFence, fenceMatchAt, stripTicks3_eq_none h]
    exact ih h1

theorem fenceBlocks_eq_nil {s : List Char} (h : tick ∉ s) :
    fenceBlocks s = [] := by
  show fenceBlocksAux (s.length + 1) s = []
  simp only [fenceBlocksAux, findFence_eq_none h]

/-- C5 counterexample: the text ```` ```json(newline)true``` ```` contains
no `{` character, yet `extractJsonFromFences` returns `true` rather than
`null` — the fenced block's trimmed content parses directly, no brace
needed — so the claim that extraction returns not-found on every
brace-free text is false. -/
theorem no_brace_notfound_counterexample :
    ('{' ∉ "```json\ntrue```".data) ∧
    extractJsonFromFences (JsInput.str "```json\ntrue```".data) = some (Json.bool true) ∧
    extractJsonFromFences (JsInput.str "```json\ntrue```".data) ≠ none := by
  refine ⟨by decide, by rfl, ?_⟩
  intro h
  have h2 : extractJsonFromFences (JsInput.str "```json\ntrue```".data) =
      some (Json.bool true) := rfl
  rw [h2] at h
  exact Option.noConfusion h

/-- C5 amended: on any text with no `{`, `extractJsonFromText` returns
`null`; `extractJsonFromFences` returns `null` as well provided the text
additionally contains no backtick (so that no fenced block can hand the
parser a brace-free JSON value such as `true`). -/
theorem no_brace_yields_notfound :
    (∀ s : List Char, '{' ∉ s → extractJsonFromText (JsInput.str s) = none) ∧
    (∀ s : List Char, '{' ∉ s → tick ∉ s →
      extractJsonFromFences (JsInput.str s) = none) := by
  constructor
  · intro s h
    rw [extractJsonFromText_str, bracePositions_eq_nil h]
    rfl
  · intro s h ht
    by_cases he : s = []
    · subst he; rfl
    · simp only [extractJsonFromFences, if_neg he, fenceBlocks_eq_nil ht]
      rfl

theorem no_brace_yields_notfound_witness :
    extractJsonFromFences (JsInput.str "hello world".data) = none :=
  no_brace_yields_notfound.2 _ (by decide) (by decide)

theorem scanStartsE_ok (s : List Char) (l : List Nat) :
    scanStartsE s l = Except.ok (scanStarts s l) := by
  induction l with
  | nil => rfl
  | cons a t ih =>
    cases h : braceScan (s.drop a) 0 [] with
    | none => simp only [scanStartsE, scanStarts, h]; exact ih
    | some cand =>
      cases h2 : jsonParse cand with
      | none => simp only [scanStartsE, scanStarts, jsonParseE, h, h2]; exact ih
      | some v => simp only [scanStartsE, scanStarts, jsonParseE, h, h2]

theorem extractJsonFromTextE_ok (x : JsInput) :
    extractJsonFromTextE x = Except.ok (extractJsonFromText x) := by
  cases x with
  | nonString b => rfl
  | str s =>
    by_cases h : s = []
    · subst h; rfl
    · simp only [extractJsonFromTextE, extractJsonFromText, if_neg h]
      exact scanStartsE_ok s (bracePositions s)

theorem fencesCoreE_ok (blocks : List (List Char)) :
    extractJsonFromFencesCoreE blocks = Except.ok (extractJsonFromFencesCore blocks) := by
  induction blocks with
  | nil => rfl
  | cons b rest ih =>
    cases h : jsonParse (jsTrim b) with
    | some v =>
      simp only [extractJsonFromFencesCoreE, extractJsonFromFencesCore, jsonParseE, h]
    | none =>
      simp only [extractJsonFromFencesCoreE, extractJsonFromFencesCore, jsonParseE, h,
        extractJsonFromTextE_ok]
      cases h2 : extractJsonFromText (JsInput.str (jsTrim b)) with
      | none => exact ih
      | some parsed =>
        by_cases ht : jsTruthy parsed
        · simp only [if_pos ht]
        · simp only [if_neg ht]; exact ih

theorem extractJsonFromFencesE_ok (x : JsInput) :
    extractJsonFromFencesE x = Except.ok (extractJsonFromFences x) := by
  cases x with
  | nonString b => rfl
  | str s =>
    by_cases h : s = []
    · subst h; rfl
    · simp only [extractJsonFromFencesE, extractJsonFromFences, if_neg h]
      exact fencesCoreE_ok (fenceBlocks s)

/-- C6: extraction never lets an exception escape.  In the exception-aware
model, where `JSON.parse` throws and the `try`/`catch` structure of the
source is explicit, both helpers always return normally, with the value
the plain model assigns them — failure is the explicit absence value
`none`, never a propagated error — and when the combined path recovers
nothing, the caller builds the fallback result wrapping the raw text as a
single informational suggestion. -/
theorem extraction_never_throws :
    (∀ x : JsInput, extractJsonFromTextE x = Except.ok (extractJsonFromText x)) ∧
    (∀ x : JsInput, extractJsonFromFencesE x = Except.ok (extractJsonFromFences x)) ∧
    (∀ s : List Char, analyzeCodeExtract s = none →
      analyzeCodeResult s = fallbackResult s) := by
  refine ⟨extractJsonFromTextE_ok, extractJsonFromFencesE_ok, ?_⟩
  intro s h
  simp only [analyzeCodeResult, h]

theorem extraction_never_throws_witness :
    analyzeCodeResult "no structured output".data =
      fallbackResult "no structured output".data :=
  extraction_never_throws.2.2 _ rfl

theorem braceDepth_nil : braceDepth [] = 0 := rfl

theorem braceDepth_cons (c : Char) (t : List Char) :
    braceDepth (c :: t) =
      (if c = '{' then 1 else if c = '}' then (-1 : Int) else 0) + braceDepth t := rfl

theorem braceDepth_open (t : List Char) : braceDepth ('{' :: t) = 1 + braceDepth t := by
  rw [braceDepth_cons, if_pos rfl]

theorem braceDepth_close (t : List Char) : braceDepth ('}' :: t) = -1 + braceDepth t := by
  rw [braceDepth_cons, if_neg (by decide), if_pos rfl]

theorem braceDepth_other {c : Char} (t : List Char) (h1 : ¬c = '{') (h2 : ¬c = '}') :
    braceDepth (c :: t) = braceDepth t := by
  rw [braceDepth_cons, if_neg h1, if_neg h2, zero_add]

theorem braceScan_spec (cs : List Char) : ∀ (d : Int) (acc out : List Char),
    braceScan cs d acc = some out →
    ∃ t, out = acc.reverse ++ t ∧ (∃ r, cs = t ++ r) ∧
      (∃ t2, t = t2 ++ ['}']) ∧ d + braceDepth t = 0 ∧
      (∀ p q, t = p ++ '}' :: q → q ≠ [] → d + braceDepth (p ++ ['}']) ≠ 0) := by
  induction cs with
  | nil => intro d acc out h; exact absurd h (by simp [braceScan])
  | cons c rest ih =>
    intro d acc out h
    simp only [braceScan] at h
    split_ifs at h with hc hc2 hd1
    · -- c = '{': depth goes up, recurse
      subst hc
      obtain ⟨t, ht, ⟨r, hr⟩, ⟨t2, ht2⟩, hd, hmin⟩ := ih (d + 1) ('{' :: acc) out h
      refine ⟨'{' :: t, ?_, ⟨r, by rw [hr, List.cons_append]⟩,
        ⟨'{' :: t2, by rw [ht2, List.cons_append]⟩, ?_, ?_⟩
      · rw [ht]; simp
      · rw [braceDepth_open]; omega
      · intro p q hpq hq
        cases p with
        | nil =>
          rw [List.nil_append] at hpq
          injection hpq with h1 _
          exact absurd h1 (by decide)
        | cons x p2 =>
          rw [List.cons_append] at hpq
          injection hpq with h1 h2
          have h3 := hmin p2 q h2 hq
          rw [← h1, List.cons_append, braceDepth_open]
          omega
    · -- c = '}' and the depth returns to zero: the candidate ends here
      subst hc2
      have hout : ('}' :: acc).reverse = out := Option.some.inj h
      refine ⟨['}'], ?_, ⟨rest, rfl⟩, ⟨[], rfl⟩, ?_, ?_⟩
      · rw [← hout, List.reverse_cons]
      · rw [braceDepth_close, braceDepth_nil]; omega
      · intro p q hpq hq
        cases p with
        | nil =>
          rw [List.nil_append] at hpq
          injection hpq with _ h2
          exact absurd h2.symm hq
        | cons x p2 =>
          rw [List.cons_append] at hpq
          injection hpq with _ h2
          exact absurd h2 (by simp)
    · -- c = '}' at positive remaining depth: depth goes down, recurse
      subst hc2
      obtain ⟨t, ht, ⟨r, hr⟩, ⟨t2, ht2⟩, hd, hmin⟩ := ih (d - 1) ('}' :: acc) out h
      refine ⟨'}' :: t, ?_, ⟨r, by rw [hr, List.cons_append]⟩,
        ⟨'}' :: t2, by rw [ht2, List.cons_append]⟩, ?_, ?_⟩
      · rw [ht]; simp
      · rw [braceDepth_close]; omega
      · intro p q hpq hq
        cases p with
        | nil =>
          rw [List.nil_append, braceDepth_close, braceDepth_nil]
          omega
        | cons x p2 =>
          rw [List.cons_append] at hpq
          injection hpq with h1 h2
          have h3 := hmin p2 q h2 hq
          rw [← h1, List.cons_append, braceDepth_close]
          omega
    · -- any other character: depth unchanged, recurse
      obtain ⟨t, ht, ⟨r, hr⟩, ⟨t2, ht2⟩, hd, hmin⟩ := ih d (c :: acc) out h
      refine ⟨c :: t, ?_, ⟨r, by rw [hr, List.cons_append]⟩,
        ⟨c :: t2, by rw [ht2, List.cons_append]⟩, ?_, ?_⟩
      · rw [ht]; simp
      · rw [braceDepth_other t hc hc2]; exact hd
      · intro p q hpq hq
        cases p with
        | nil =>
          rw [List.nil_append] at hpq
          injection hpq with h1 _
          exact absurd h1 hc2
        | cons x p2 =>
          rw [List.cons_append] at hpq
          injection hpq with h1 h2
          have h3 := hmin p2 q h2 hq
          rw [← h1, List.cons_append, braceDepth_other _ hc hc2]
          omega

/-- C4: the candidate substring is delimited by depth counting — it ends
exactly at the first closing brace at which the running depth returns to
zero, never at an earlier inner `}` — and on the nested text
`{"a": {"b": 2}}` extraction returns the complete nested object. -/
theorem depth_matched_candidate_not_truncated :
    (∀ (cs out : List Char), braceScan cs 0 [] = some out →
      (∃ r, cs = out ++ r) ∧ (∃ t2, out = t2 ++ ['}']) ∧ braceDepth out = 0 ∧
      (∀ p q, out = p ++ '}' :: q → q ≠ [] → braceDepth (p ++ ['}']) ≠ 0)) ∧
    braceScan "\x7b\"a\": \x7b\"b\": 2\x7d\x7d".data 0 [] =
      some "\x7b\"a\": \x7b\"b\": 2\x7d\x7d".data ∧
    extractJsonFromText (JsInput.str "\x7b\"a\": \x7b\"b\": 2\x7d\x7d".data) =
      some (Json.obj [("a", Json.obj [("b", Json.num "2")])]) := by
  refine ⟨?_, by rfl, by rfl⟩
  intro cs out h
  obtain ⟨t, ht, hpre, hend, hd, hmin⟩ := braceScan_spec cs 0 [] out h
  simp only [List.reverse_nil, List.nil_append] at ht
  subst ht
  refine ⟨hpre, hend, by omega, ?_⟩
  intro p q hpq hq
  have h3 := hmin p q hpq hq
  omega

theorem depth_matched_candidate_not_truncated_witness :
    braceDepth "\x7b\x7b\x7d\x7d".data = 0 :=
  (depth_matched_candidate_not_truncated.1 "\x7b\x7b\x7d\x7d".data
    "\x7b\x7b\x7d\x7d".data rfl).2.2.1
